import Mathlib

/-!
Verification of the feature-interpretation scripts of the Parkinson fMRI
detector repository.

The development shallowly embeds the pure logic of
`feature_interpretation_analysis.py` (feature-name synthesis, feature
categorization, importance-summary aggregation, biological interpretation)
and `integrate_feature_interpretation.py` (best-model selection).
Floating-point importance scores are modelled as rationals; a Python
exception (IndexError while indexing a list) is modelled by `Option`,
with `none` standing for a raised exception.  Python `%03d` formatting,
substring tests (`in`), `str.lower` (on ASCII, the only characters these
scripts produce) and list slicing are embedded by executable Lean
functions defined below.
-/

/-! ## Decimal rendering (Python `format` specifiers `d` and `03d`) -/

/-- Little-endian decimal digits of `n`, with explicit fuel so that the
recursion is structural (kernel-reducible).  `decAux fuel n` is the digit
list of `n` whenever `n ≤ fuel`. -/
def decAux : Nat → Nat → List Nat
  | 0, _ => []
  | fuel+1, n => if n = 0 then [] else n % 10 :: decAux fuel (n / 10)

/-- Little-endian decimal digits of `n` (empty for `n = 0`). -/
def decDigits (n : Nat) : List Nat := decAux n n

/-- Big-endian decimal character rendering of `n` (empty for `n = 0`). -/
def decChars (n : Nat) : List Char := ((decDigits n).map Nat.digitChar).reverse

/-- Characters of Python `f"{n:03d}"`: decimal digits of `n` left-padded
with zeros to width three. -/
def pad3 (n : Nat) : List Char := List.replicate (3 - (decChars n).length) '0' ++ decChars n

/-- Python `f"{n:03d}"` as a string. -/
def pad3Str (n : Nat) : String := ⟨pad3 n⟩

/-- Python `f"{n}"`: unpadded decimal rendering. -/
def natStr (n : Nat) : String := if n = 0 then "0" else ⟨decChars n⟩

/-- Value of a decimal digit character (inverse of `Nat.digitChar` on
digits below ten). -/
def charVal (c : Char) : Nat := c.toNat - 48

/-- Decode a big-endian digit-character list back to a number; left
inverse of `pad3`. -/
def decodeVal : List Nat → Nat
  | [] => 0
  | d :: t => d + 10 * decodeVal t

/-- Decode the big-endian character list written by `pad3`. -/
def pad3decode (l : List Char) : Nat := decodeVal ((l.map charVal).reverse)

/-! ## Substring matching (Python `sub in s`) and ASCII lowering -/

/-- Whether `pat` is an initial segment of `s` (over characters). -/
def beginsWith : List Char → List Char → Bool
  | _, [] => true
  | [], _ :: _ => false
  | c :: cs, d :: ds => c == d && beginsWith cs ds

/-- Whether `pat` occurs as a contiguous segment of `s`; embeds the
Python containment test `pat in s` on strings. -/
def hasSeg : List Char → List Char → Bool
  | [], pat => pat.isEmpty
  | c :: cs, pat => beginsWith (c :: cs) pat || hasSeg cs pat

/-- Python `pat in s` for strings. -/
def containsStr (s pat : String) : Bool := hasSeg s.data pat.data

/-- Python `str.lower` on a single character, for the ASCII alphabet (the
only letters occurring in synthesized feature names and keyword tables). -/
def lowerChar (c : Char) : Char :=
  if c = 'A' then 'a' else if c = 'B' then 'b' else if c = 'C' then 'c'
  else if c = 'D' then 'd' else if c = 'E' then 'e' else if c = 'F' then 'f'
  else if c = 'G' then 'g' else if c = 'H' then 'h' else if c = 'I' then 'i'
  else if c = 'J' then 'j' else if c = 'K' then 'k' else if c = 'L' then 'l'
  else if c = 'M' then 'm' else if c = 'N' then 'n' else if c = 'O' then 'o'
  else if c = 'P' then 'p' else if c = 'Q' then 'q' else if c = 'R' then 'r'
  else if c = 'S' then 's' else if c = 'T' then 't' else if c = 'U' then 'u'
  else if c = 'V' then 'v' else if c = 'W' then 'w' else if c = 'X' then 'x'
  else if c = 'Y' then 'y' else if c = 'Z' then 'z' else c

/-- Python `s.lower()`. -/
def lowerStr (s : String) : String := ⟨s.data.map lowerChar⟩

/-! ## Feature namer (`FeatureInterpreter.create_feature_names`, default
ROI names, i.e. `roi_names is None`) -/

/-- Default ROI label `f"ROI_{roi_idx:03d}"`. -/
def roiName (roi_idx : Nat) : String := "ROI_" ++ pad3Str roi_idx

/-- Frequency bands, from the source list `freq_bands`. -/
def freq_bands : List String := [ "low_freq", "mid_freq", "high_freq"]

/-- Embeds `create_feature_names(n_rois)` with `roi_names is None`:
first the three statistical names per ROI, then the upper-triangle
connectivity names (`for i in range(n_rois): for j in range(i+1, n_rois)`),
then the three frequency-band power names per ROI. -/
def create_feature_names (n_rois : Nat) : List String :=
  ((List.range n_rois).flatMap (fun roi_idx =>
      [roiName roi_idx ++ "_mean_activity",
       roiName roi_idx ++ "_std_activity",
       roiName roi_idx ++ "_var_activity"]))
  ++ ((List.range n_rois).flatMap (fun i =>
      (List.range' (i+1) (n_rois - (i+1))).map (fun j =>
        "FC_" ++ roiName i ++ "_" ++ roiName j)))
  ++ ((List.range n_rois).flatMap (fun roi_idx =>
      freq_bands.map (fun band => roiName roi_idx ++ "_" ++ band ++ "_power")))

/-- The statistical segment of `create_feature_names` alone. -/
def statNamesBlock (n_rois : Nat) : List String :=
  (List.range n_rois).flatMap (fun roi_idx =>
    [roiName roi_idx ++ "_mean_activity",
     roiName roi_idx ++ "_std_activity",
     roiName roi_idx ++ "_var_activity"])

/-- The frequency segment of `create_feature_names` alone, grouped by ROI. -/
def freqNamesBlock (n_rois : Nat) : List String :=
  (List.range n_rois).flatMap (fun roi_idx =>
    freq_bands.map (fun band => roiName roi_idx ++ "_" ++ band ++ "_power"))

/-- The (i, j) index pairs enumerated by the connectivity loops, in source
iteration order. -/
def fcPairs (n_rois : Nat) : List (Nat × Nat) :=
  (List.range n_rois).flatMap (fun i =>
    (List.range' (i+1) (n_rois - (i+1))).map (fun j => (i, j)))

/-- The connectivity name written for the pair `(i, j)`. -/
def fcName (p : Nat × Nat) : String := "FC_" ++ roiName p.1 ++ "_" ++ roiName p.2

/-- Row-major (lexicographic) strict order on index pairs. -/
def pairLt (p q : Nat × Nat) : Prop := p.1 < q.1 ∨ (p.1 = q.1 ∧ p.2 < q.2)

/-- Abstract identity of a synthesized feature name: which loop produced
it and at which indices.  Used to factor the duplicate-freeness proof of
`create_feature_names` through an injective rendering function. -/
inductive FeatureKey where
  | stat (i : Nat) (k : Fin 3)
  | fc (i j : Nat)
  | freq (i : Nat) (b : Fin 3)
deriving DecidableEq

/-- The statistical suffixes, in source order. -/
def statSuffix : Fin 3 → String
  | 0 => "_mean_activity"
  | 1 => "_std_activity"
  | 2 => "_var_activity"

/-- The band of a frequency feature, in source order. -/
def bandName : Fin 3 → String
  | 0 => "low_freq"
  | 1 => "mid_freq"
  | 2 => "high_freq"

/-- Renders an abstract feature key to the very string the source writes. -/
def renderKey : FeatureKey → String
  | .stat i k => roiName i ++ statSuffix k
  | .fc i j => "FC_" ++ roiName i ++ "_" ++ roiName j
  | .freq i b => roiName i ++ "_" ++ bandName b ++ "_power"

/-- The abstract keys of `create_feature_names n`, in list order. -/
def featureKeys (n_rois : Nat) : List FeatureKey :=
  ((List.range n_rois).flatMap (fun i => [.stat i 0, .stat i 1, .stat i 2]))
  ++ ((fcPairs n_rois).map (fun p => .fc p.1 p.2))
  ++ ((List.range n_rois).flatMap (fun i => [.freq i 0, .freq i 1, .freq i 2]))

/-! ## Categorizer (`FeatureInterpreter._categorize_feature`) -/

/-- The five fixed categories of the name-based categorizer. -/
def fixedCategories : List String :=
  [ "ROI Mean Activity", "ROI Variability", "Functional Connectivity",
    "Frequency Power", "Other"]

/-- Embeds the substring chain of `_categorize_feature` applied to a
resolved feature name (source lines 263 to 274). -/
def categorize_feature_name (feature_name : String) : String :=
  if containsStr feature_name "_mean_activity" then "ROI Mean Activity"
  else if containsStr feature_name "_std_activity" || containsStr feature_name "_var_activity" then
    "ROI Variability"
  else if containsStr feature_name "FC_" then "Functional Connectivity"
  else if containsStr feature_name "_freq_power" then "Frequency Power"
  else "Other"

/-! ## Biological interpreter
(`FeatureInterpreter._interpret_feature_biologically`) -/

/-- The ordered keyword table `interpretations` of the source, with its
exact keys and sentences (insertion order = Python dict iteration order). -/
def interpretations : List (String × String) :=
  [ ("motor", "Motor control regions - directly affected by dopamine loss in Parkinson\x27s"),
    ("basal_ganglia", "Core region affected in Parkinson\x27s - dopaminergic neuron loss"),
    ("substantia_nigra", "Primary site of dopamine neuron death in Parkinson\x27s"),
    ("putamen", "Part of basal ganglia - motor control and habit formation"),
    ("caudate", "Part of basal ganglia - executive function and movement initiation"),
    ("thalamus", "Relay station - altered in Parkinson\x27s motor circuits"),
    ("cerebellum", "Motor coordination - compensatory changes in Parkinson\x27s"),
    ("frontal", "Executive function - affected in Parkinson\x27s cognitive symptoms"),
    ("FC_", "Altered brain network connectivity - hallmark of Parkinson\x27s"),
    ("freq_power", "Abnormal brain oscillations - beta band changes in Parkinson\x27s")]

/-- The fallback sentence of `_interpret_feature_biologically`. -/
def defaultInterpretation : String :=
  "May reflect disease-related changes in brain structure or function"

/-- Embeds `_interpret_feature_biologically`: lower the name, return the
sentence of the first table key occurring in the lowered name, else the
default sentence. -/
def interpret_feature_biologically (feature_name : String) : String :=
  match interpretations.find? (fun kv => containsStr (lowerStr feature_name) kv.1) with
  | some kv => kv.2
  | none => defaultInterpretation

/-! ## Importance summary (`FeatureInterpreter.create_importance_summary`) -/

/-- One entry of `self.feature_importance_results`.  The source stores a
dict per method; the fields used anywhere downstream are the method label
and one numeric array per key kind (`scores` for the univariate entries,
`coefficients` for the linear entries, `importances` for the tree entry,
`importances_mean` for the permutation entry).  Fitted model objects are
irrelevant to the summary and omitted. -/
structure StoredResult where
  method : String
  scores : List ℚ
  coefficients : List ℚ
  importances : List ℚ
  importances_mean : List ℚ
deriving DecidableEq

/-- The interpreter state consumed by `create_importance_summary`:
`feature_names` (`none` embeds Python `None`) and the ordered results
dict. -/
structure InterpreterState where
  feature_names : Option (List String)
  feature_importance_results : List (String × StoredResult)

/-- One row of the summary DataFrame. -/
structure SummaryRow where
  method : String
  rank : Nat
  feature_index : Nat
  feature_name : String
  importance_score : ℚ
  feature_type : String
deriving DecidableEq

/-- Embeds `np.argsort(s)`: the indices `0 .. len s - 1` sorted by
ascending score.  `np.argsort` leaves the relative order of equal scores
unspecified; the embedding picks the stable insertion sort, which is one
admissible outcome. -/
def argsortAsc (s : List ℚ) : List Nat :=
  List.insertionSort (fun i j => s.getD i 0 ≤ s.getD j 0) (List.range s.length)

/-- Embeds `np.argsort(s)[-top_k:][::-1]`.  For positive `top_k` the
negative-index slice keeps the last `min top_k (s.length)` entries of the
ascending argsort (Nat subtraction clips exactly as the slice clips at
the list head), reversed to descending order.  For `top_k = 0` the slice
is `[-0:]`, i.e. `[0:]`, which keeps the entire array: every index is
selected, in descending score order. -/
def topIndices (s : List ℚ) (top_k : Nat) : List Nat :=
  if top_k = 0 then (argsortAsc s).reverse
  else ((argsortAsc s).drop (s.length - top_k)).reverse

/-- Embeds `self.feature_names[idx] if self.feature_names else
f'Feature_{idx}'`: both `None` and the empty list are falsy and fall back
to the synthetic label; a non-empty list is indexed and raises
(`none`) when `idx` is out of range. -/
def resolveFeatureName (names : Option (List String)) (idx : Nat) : Option String :=
  match names with
  | none => some ( "Feature_" ++ natStr idx)
  | some l => if l = [] then some ( "Feature_" ++ natStr idx) else l.get? idx

/-- Embeds `_categorize_feature(idx)`: `'Unknown'` when the name list is
`None`, otherwise the name at `idx` is resolved (raising when out of
range) and categorized. -/
def categorizeIdx (names : Option (List String)) (idx : Nat) : Option String :=
  match names with
  | none => some "Unknown"
  | some l => (l.get? idx).map categorize_feature_name

/-- Builds the summary rows of one method from its selected index list,
with `rank` the 0-based loop counter (the stored rank is `rank + 1`).
Returns `none` as soon as a list access raises. -/
def buildRows (names : Option (List String)) (methodLabel : String) (values : List ℚ) :
    List Nat → Nat → Option (List SummaryRow)
  | [], _ => some []
  | idx :: rest, rank =>
    match resolveFeatureName names idx, categorizeIdx names idx with
    | some nm, some ft =>
        (buildRows names methodLabel values rest (rank+1)).map
          (fun rs => ⟨methodLabel, rank + 1, idx, nm, values.getD idx 0, ft⟩ :: rs)
    | _, _ => none

/-- The score array `create_importance_summary` reads for a given dict
key: `scores` for `univariate_f`, absolute `coefficients` for
`linear_l2`, `importances` for `tree_based`, `importances_mean` for
`permutation`; `none` for every other key (notably `univariate_mi` and
`linear_l1`, which the summary silently ignores). -/
def usedValues : String × StoredResult → Option (List ℚ)
  | (key, results) =>
    if key = "univariate_f" then some results.scores
    else if key = "linear_l2" then some (results.coefficients.map (fun c => |c|))
    else if key = "tree_based" then some results.importances
    else if key = "permutation" then some results.importances_mean
    else none

/-- The summary rows contributed by one entry of the results dict. -/
def methodBlock (names : Option (List String)) (top_k : Nat)
    (e : String × StoredResult) : Option (List SummaryRow) :=
  match usedValues e with
  | some vals => buildRows names e.2.method vals (topIndices vals top_k) 0
  | none => some []

/-- Folds the per-method row blocks over the results dict in order,
propagating a raised exception. -/
def collectRows (names : Option (List String)) (top_k : Nat) :
    List (String × StoredResult) → Option (List SummaryRow)
  | [] => some []
  | e :: rest =>
    match methodBlock names top_k e, collectRows names top_k rest with
    | some rows, some more => some (rows ++ more)
    | _, _ => none

/-- Embeds `create_importance_summary(top_k)`: the long-form summary
table, or `none` when a list index raised. -/
def create_importance_summary (st : InterpreterState) (top_k : Nat) :
    Option (List SummaryRow) :=
  collectRows st.feature_names top_k st.feature_importance_results

/-! ## Best-model selection (`integrate_feature_interpretation.get_best_model`) -/

/-- Embeds the scoring loop of `get_best_model`.  A trained model is
abstracted to its scoring outcome on the fixed test set: `some s` when
`model.score` returns `s`, `none` when it raises (the bare `except`
swallows the exception and continues).  `best` starts at `None` and
`best_score` at `0`; only a strictly larger score replaces them. -/
def bestLoop : List (String × Option ℚ) → ℚ → Option String → Option String
  | [], _, best => best
  | (name, res) :: rest, best_score, best =>
    match res with
    | none => bestLoop rest best_score best
    | some score =>
        if best_score < score then bestLoop rest score (some name)
        else bestLoop rest best_score best

/-- Embeds `get_best_model`: the loop result if it is a truthy name
(Python treats the empty string as falsy), else the first key of the
dict; `none` only when the dict is empty (where Python raises). -/
def get_best_model (trained_models : List (String × Option ℚ)) : Option String :=
  match bestLoop trained_models 0 none with
  | some best_model_name =>
      if best_model_name = "" then (trained_models.map Prod.fst).head?
      else some best_model_name
  | none => (trained_models.map Prod.fst).head?

/-! ## ROI-count estimation (`run_feature_interpretation_analysis`) -/

/-- Embeds `n_rois = int(np.sqrt(X.shape[1] / 6))` from
`run_feature_interpretation_analysis` (used when no feature names are
supplied).  Since `floor (sqrt x) = floor (sqrt (floor x))` for real
`x ≥ 0`, truncating the float square root of the true division equals the
integer square root of the floor division. -/
def n_rois_estimate (n_features : Nat) : Nat := Nat.sqrt (n_features / 6)

/-! ## Concrete states used by witnesses and counterexamples -/

/-- State after `analyze_feature_importance_univariate` on a one-column
matrix with a one-name list: both `univariate_f` and `univariate_mi` are
stored, as at source lines 92 to 102. -/
def stMi : InterpreterState :=
  ⟨some [ "ROI_000_mean_activity"],
   [("univariate_f", ⟨ "F-statistic", [2], [], [], []⟩),
    ("univariate_mi", ⟨ "Mutual Information", [2], [], [], []⟩)]⟩

/-- A state whose name list (length one) is strictly shorter than the
score array (two columns): the top index roams to column one. -/
def stShort : InterpreterState :=
  ⟨some [ "ROI_000_mean_activity"],
   [("tree_based", ⟨ "Random Forest", [], [], [1, 5], []⟩)]⟩

/-- A short-name-list state whose selected top index happens to stay in
range. -/
def stShortOk : InterpreterState :=
  ⟨some [ "ROI_000_mean_activity"],
   [("tree_based", ⟨ "Random Forest", [], [], [5, 1], []⟩)]⟩

/-- A state with `feature_names = None` and one stored tree result. -/
def stNone : InterpreterState :=
  ⟨none, [("tree_based", ⟨ "Random Forest", [], [], [3, 1], []⟩)]⟩

/-- An aligned state (two names, two columns) with one stored tree
result. -/
def stAligned : InterpreterState :=
  ⟨some [ "ROI_000_mean_activity", "FC_ROI_000_ROI_001"],
   [("tree_based", ⟨ "Random Forest", [], [], [1, 5], []⟩)]⟩

/-- A model dict whose first model raises on scoring and whose second
scores one. -/
def modelsMixed : List (String × Option ℚ) := [("svm", none), ("random_forest", some 1)]

/-- A model dict in which scoring every model raises. -/
def modelsAllFail : List (String × Option ℚ) := [("svm", none), ("random_forest", none)]

/-! ## Helper lemmas: decimal rendering -/

theorem decAux_mem_lt : ∀ (fuel n d : Nat), d ∈ decAux fuel n → d < 10 := by
  intro fuel
  induction fuel with
  | zero => intro n d h; simp [decAux] at h
  | succ f ih =>
    intro n d h
    by_cases h0 : n = 0
    · simp [decAux, h0] at h
    · simp only [decAux, h0, if_false, List.mem_cons] at h
      rcases h with h | h
      · omega
      · exact ih _ _ h

theorem decodeVal_decAux : ∀ (fuel n : Nat), n ≤ fuel → decodeVal (decAux fuel n) = n := by
  intro fuel
  induction fuel with
  | zero =>
    intro n h
    have hn : n = 0 := by omega
    subst hn
    rfl
  | succ f ih =>
    intro n h
    by_cases h0 : n = 0
    · subst h0; rfl
    · have hdiv : n / 10 ≤ f := by
        have := Nat.div_lt_self (Nat.pos_of_ne_zero h0) (by norm_num : 1 < 10)
        omega
      simp only [decAux, h0, if_false, decodeVal, ih _ hdiv]
      omega

theorem decodeVal_append_zeros : ∀ (L : List Nat) (k : Nat),
    decodeVal (L ++ List.replicate k 0) = decodeVal L := by
  intro L
  induction L with
  | nil =>
    intro k
    induction k with
    | zero => rfl
    | succ k ihk => simp only [List.nil_append, List.replicate_succ, decodeVal] at *; omega
  | cons d t iht =>
    intro k
    show d + 10 * decodeVal (t ++ List.replicate k 0) = d + 10 * decodeVal t
    rw [iht]

theorem charVal_digitChar : ∀ d : Nat, d < 10 → charVal (Nat.digitChar d) = d := by decide

theorem digitChar_isDigit : ∀ d : Nat, d < 10 → (Nat.digitChar d).isDigit = true := by decide

theorem pad3decode_pad3 (n : Nat) : pad3decode (pad3 n) = n := by
  unfold pad3decode pad3 decChars
  rw [List.map_append, List.map_replicate, List.map_reverse, List.map_map]
  have h2 : (decDigits n).map (charVal ∘ Nat.digitChar) = decDigits n := by
    have hpt : ∀ d ∈ decDigits n, (charVal ∘ Nat.digitChar) d = id d :=
      fun d hd => charVal_digitChar d (decAux_mem_lt n n d hd)
    rw [List.map_congr_left hpt, List.map_id]
  rw [h2]
  have h0 : charVal '0' = 0 := rfl
  rw [h0, List.reverse_append, List.reverse_reverse, List.reverse_replicate]
  rw [decodeVal_append_zeros]
  exact decodeVal_decAux n n le_rfl

theorem pad3_inj : ∀ (a b : Nat), pad3 a = pad3 b → a = b := by
  intro a b h
  have := congrArg pad3decode h
  rwa [pad3decode_pad3, pad3decode_pad3] at this

theorem pad3_digits (n : Nat) : ∀ c ∈ pad3 n, c.isDigit = true := by
  intro c hc
  rw [pad3, List.mem_append] at hc
  rcases hc with hc | hc
  · have := List.eq_of_mem_replicate hc
    subst this
    decide
  · rw [decChars, List.mem_reverse, List.mem_map] at hc
    obtain ⟨d, hd, hdc⟩ := hc
    subst hdc
    exact digitChar_isDigit d (decAux_mem_lt n n d hd)

/-! ## Helper lemmas: splitting rendered names at the first non-digit -/

theorem split_digits : ∀ (A A' : List Char) {c c' : Char} {B B' : List Char},
    (∀ x ∈ A, x.isDigit = true) → (∀ x ∈ A', x.isDigit = true) →
    c.isDigit = false → c'.isDigit = false →
    A ++ c :: B = A' ++ c' :: B' → A = A' ∧ c = c' ∧ B = B' := by
  intro A
  induction A with
  | nil =>
    intro A' c c' B B' _ hA' hc hc' h
    cases A' with
    | nil => simpa using h
    | cons a' t' =>
      simp only [List.nil_append, List.cons_append, List.cons.injEq] at h
      have hdig : a'.isDigit = true := hA' a' (by simp)
      rw [← h.1] at hdig
      rw [hdig] at hc
      exact absurd hc (by simp)
  | cons a t ih =>
    intro A' c c' B B' hA hA' hc hc' h
    cases A' with
    | nil =>
      simp only [List.nil_append, List.cons_append, List.cons.injEq] at h
      have hdig : a.isDigit = true := hA a (by simp)
      rw [h.1] at hdig
      rw [hdig] at hc'
      exact absurd hc' (by simp)
    | cons a' t' =>
      simp only [List.cons_append, List.cons.injEq] at h
      obtain ⟨h1, h2⟩ := h
      obtain ⟨e1, e2, e3⟩ := ih t'
        (fun x hx => hA x (by simp [hx])) (fun x hx => hA' x (by simp [hx])) hc hc' h2
      exact ⟨by rw [h1, e1], e2, e3⟩

/-! ## Helper lemmas: normal forms and injectivity of rendered names -/

theorem stat_data (i : Nat) (k : Fin 3) : (renderKey (.stat i k)).data
    = 'R' :: 'O' :: 'I' :: '_' :: (pad3 i ++ (statSuffix k).data) := rfl

theorem fc_data (i j : Nat) : (renderKey (.fc i j)).data
    = 'F' :: 'C' :: '_' :: 'R' :: 'O' :: 'I' :: '_' ::
      (pad3 i ++ '_' :: ('R' :: 'O' :: 'I' :: '_' :: pad3 j)) := by
  have h : (renderKey (.fc i j)).data
      = 'F' :: 'C' :: '_' :: 'R' :: 'O' :: 'I' :: '_' ::
        ((pad3 i ++ ['_']) ++ ('R' :: 'O' :: 'I' :: '_' :: pad3 j)) := rfl
  rw [h, List.append_assoc]
  rfl

theorem freq_data (i : Nat) (b : Fin 3) : (renderKey (.freq i b)).data
    = 'R' :: 'O' :: 'I' :: '_' ::
      (pad3 i ++ '_' :: ((bandName b).data ++ "_power".data)) := by
  have h : (renderKey (.freq i b)).data
      = 'R' :: 'O' :: 'I' :: '_' ::
        (((pad3 i ++ ['_']) ++ (bandName b).data) ++ "_power".data) := rfl
  rw [h, List.append_assoc, List.append_assoc]
  rfl

theorem roiTail_inj {i i' : Nat} {R R' : List Char}
    (h : 'R' :: 'O' :: 'I' :: '_' :: (pad3 i ++ '_' :: R)
       = 'R' :: 'O' :: 'I' :: '_' :: (pad3 i' ++ '_' :: R')) :
    i = i' ∧ R = R' := by
  simp only [List.cons.injEq, true_and] at h
  obtain ⟨h1, _, h3⟩ := split_digits (pad3 i) (pad3 i')
    (pad3_digits i) (pad3_digits i') (by decide) (by decide) h
  exact ⟨pad3_inj _ _ h1, h3⟩

theorem renderKey_inj : Function.Injective renderKey := by
  intro x y h
  have hd : (renderKey x).data = (renderKey y).data := congrArg String.data h
  cases x with
  | stat i k =>
    cases y with
    | stat i' k' =>
      rw [stat_data, stat_data] at hd
      fin_cases k <;> fin_cases k' <;>
        · obtain ⟨hi, hR⟩ := roiTail_inj hd
          subst hi
          first
          | rfl
          | exact absurd hR (by decide)
    | fc i' j' =>
      rw [stat_data, fc_data] at hd
      simp at hd
    | freq i' b' =>
      rw [stat_data, freq_data] at hd
      fin_cases k <;> fin_cases b' <;>
        · obtain ⟨hi, hR⟩ := roiTail_inj hd
          exact absurd hR (by decide)
  | fc i j =>
    cases y with
    | stat i' k' =>
      rw [fc_data, stat_data] at hd
      simp at hd
    | fc i' j' =>
      rw [fc_data, fc_data] at hd
      simp only [List.cons.injEq, true_and] at hd
      obtain ⟨h1, _, h3⟩ := split_digits (pad3 i) (pad3 i')
        (pad3_digits i) (pad3_digits i') (by decide) (by decide) hd
      simp only [List.cons.injEq, true_and] at h3
      rw [pad3_inj _ _ h1, pad3_inj _ _ h3]
    | freq i' b' =>
      rw [fc_data, freq_data] at hd
      simp at hd
  | freq i b =>
    cases y with
    | stat i' k' =>
      rw [freq_data, stat_data] at hd
      fin_cases b <;> fin_cases k' <;>
        · obtain ⟨hi, hR⟩ := roiTail_inj hd
          exact absurd hR (by decide)
    | fc i' j' =>
      rw [freq_data, fc_data] at hd
      simp at hd
    | freq i' b' =>
      rw [freq_data, freq_data] at hd
      obtain ⟨hi, hR⟩ := roiTail_inj hd
      subst hi
      fin_cases b <;> fin_cases b' <;>
        first
        | rfl
        | exact absurd hR (by decide)

/-! ## Helper lemmas: the connectivity pair enumeration -/

theorem mem_fcPairs {n : Nat} {p : Nat × Nat} : p ∈ fcPairs n ↔ p.1 < p.2 ∧ p.2 < n := by
  obtain ⟨i, j⟩ := p
  simp only [fcPairs, List.mem_flatMap, List.mem_map, List.mem_range, List.mem_range',
    Prod.mk.injEq]
  constructor
  · rintro ⟨a, ha, b, ⟨t, ht, hb⟩, hai, hbj⟩
    omega
  · rintro ⟨hij, hjn⟩
    exact ⟨i, by omega, j, ⟨j - (i + 1), by omega, by omega⟩, rfl, rfl⟩

theorem pairwise_flatMap {α β : Type} {R : β → β → Prop} {f : α → List β} :
    ∀ {l : List α}, (∀ a ∈ l, (f a).Pairwise R) →
      l.Pairwise (fun a b => ∀ x ∈ f a, ∀ y ∈ f b, R x y) →
      (l.flatMap f).Pairwise R := by
  intro l
  induction l with
  | nil => intro _ _; simp
  | cons a t ih =>
    intro h1 h2
    rw [List.flatMap_cons, List.pairwise_append]
    rcases List.pairwise_cons.mp h2 with ⟨hcross, ht⟩
    refine ⟨h1 a (by simp), ih (fun b hb => h1 b (by simp [hb])) ht, ?_⟩
    intro x hx y hy
    rw [List.mem_flatMap] at hy
    obtain ⟨b, hb, hyb⟩ := hy
    exact hcross b hb x hx y hyb

theorem pairwise_fcPairs (n : Nat) : (fcPairs n).Pairwise pairLt := by
  apply pairwise_flatMap
  · intro i _
    rw [List.pairwise_map]
    exact (List.pairwise_lt_range' (i+1) (n - (i+1))).imp (fun h => Or.inr ⟨rfl, h⟩)
  · refine (List.pairwise_lt_range n).imp ?_
    intro a b hab x hx y hy
    simp only [List.mem_map] at hx hy
    obtain ⟨jx, _, hx'⟩ := hx
    obtain ⟨jy, _, hy'⟩ := hy
    rw [← hx', ← hy']
    exact Or.inl hab

theorem nodup_fcPairs (n : Nat) : (fcPairs n).Nodup := by
  refine (pairwise_fcPairs n).imp ?_
  intro a b h heq
  subst heq
  rcases h with h | ⟨_, h⟩ <;> exact absurd h (lt_irrefl _)

/-! ## Helper lemmas: duplicate freeness of the abstract key list -/

theorem nodup_featureKeys (n : Nat) : (featureKeys n).Nodup := by
  unfold featureKeys
  rw [List.nodup_append, List.nodup_append]
  refine ⟨⟨?_, ?_, ?_⟩, ?_, ?_⟩
  · rw [List.nodup_flatMap]
    refine ⟨fun i _ => by simp, ?_⟩
    refine (List.pairwise_lt_range n).imp ?_
    intro a b hab x hxa hxb
    simp only [List.mem_cons, List.not_mem_nil, or_false] at hxa hxb
    rcases hxa with h | h | h <;> rcases hxb with h' | h' | h' <;>
      (subst h; simp only [FeatureKey.stat.injEq] at h'; omega)
  · exact (nodup_fcPairs n).map
      (fun p q h => by
        obtain ⟨a, b⟩ := p
        obtain ⟨c, d⟩ := q
        simpa using h)
  · intro x hxa hxb
    simp only [List.mem_flatMap, List.mem_cons, List.not_mem_nil, or_false,
      List.mem_map, List.mem_range] at hxa hxb
    obtain ⟨i, _, hx⟩ := hxa
    obtain ⟨p, _, hy⟩ := hxb
    rcases hx with h | h | h <;> (subst h; simp at hy)
  · rw [List.nodup_flatMap]
    refine ⟨fun i _ => by simp, ?_⟩
    refine (List.pairwise_lt_range n).imp ?_
    intro a b hab x hxa hxb
    simp only [List.mem_cons, List.not_mem_nil, or_false] at hxa hxb
    rcases hxa with h | h | h <;> rcases hxb with h' | h' | h' <;>
      (subst h; simp only [FeatureKey.freq.injEq] at h'; omega)
  · intro x hxa hxb
    rw [List.mem_append] at hxa
    simp only [List.mem_flatMap, List.mem_cons, List.not_mem_nil, or_false,
      List.mem_map, List.mem_range] at hxa hxb
    obtain ⟨i, _, hy⟩ := hxb
    rcases hy with h' | h' | h' <;> subst h' <;>
      rcases hxa with ⟨a, _, hx⟩ | ⟨p, _, hx⟩ <;> simp_all

/-! ## Helper lemmas: lengths -/

theorem two_mul_sum_range (n : Nat) : 2 * (List.range n).sum = n * (n - 1) := by
  induction n with
  | zero => rfl
  | succ m ih =>
    rw [List.range_succ, List.sum_append]
    simp only [List.sum_cons, List.sum_nil, Nat.add_zero, Nat.succ_sub_one]
    have hsplit : 2 * ((List.range m).sum + m) = 2 * (List.range m).sum + 2 * m := by ring
    rw [hsplit, ih]
    cases m with
    | zero => rfl
    | succ p =>
      simp only [Nat.succ_sub_one]
      ring

theorem length_fcPairs (n : Nat) : (fcPairs n).length = n * (n - 1) / 2 := by
  rw [fcPairs, List.length_flatMap]
  have h1 : List.map (List.length ∘ fun i => (List.range' (i+1) (n - (i+1))).map (fun j => (i, j)))
      (List.range n) = List.map (fun i => n - 1 - i) (List.range n) := by
    apply List.map_congr_left
    intro a _
    simp only [Function.comp_apply, List.length_map, List.length_range']
    omega
  have h2 : List.map (fun i => n - 1 - i) (List.range n) = (List.range n).reverse := by
    conv_rhs => rw [List.range_eq_range', List.reverse_range']
    simp
  rw [h1, h2, List.sum_reverse]
  have := two_mul_sum_range n
  omega

theorem length_statNamesBlock (n : Nat) : (statNamesBlock n).length = 3 * n := by
  rw [statNamesBlock, List.length_flatMap]
  have h1 : List.map (List.length ∘ fun roi_idx =>
        [roiName roi_idx ++ "_mean_activity", roiName roi_idx ++ "_std_activity",
         roiName roi_idx ++ "_var_activity"]) (List.range n)
      = List.replicate n 3 := by
    rw [show (List.length ∘ fun roi_idx =>
          [roiName roi_idx ++ "_mean_activity", roiName roi_idx ++ "_std_activity",
           roiName roi_idx ++ "_var_activity"]) = Function.const Nat 3 from rfl]
    rw [List.map_const, List.length_range]
  rw [h1, List.sum_replicate, smul_eq_mul]
  omega

theorem length_freqNamesBlock (n : Nat) : (freqNamesBlock n).length = 3 * n := by
  rw [freqNamesBlock, List.length_flatMap]
  have h1 : List.map (List.length ∘ fun roi_idx =>
        freq_bands.map (fun band => roiName roi_idx ++ "_" ++ band ++ "_power")) (List.range n)
      = List.replicate n 3 := by
    rw [show (List.length ∘ fun roi_idx =>
          freq_bands.map (fun band => roiName roi_idx ++ "_" ++ band ++ "_power"))
        = Function.const Nat 3 from rfl]
    rw [List.map_const, List.length_range]
  rw [h1, List.sum_replicate, smul_eq_mul]
  omega

theorem create_decomp (n : Nat) : create_feature_names n
    = statNamesBlock n ++ ((fcPairs n).map fcName) ++ freqNamesBlock n := by
  unfold create_feature_names statNamesBlock freqNamesBlock fcPairs fcName
  simp only [List.map_flatMap, List.map_map]
  rfl

theorem create_eq_keys (n : Nat) : create_feature_names n = (featureKeys n).map renderKey := by
  unfold create_feature_names featureKeys fcPairs
  simp only [List.map_append, List.map_flatMap, List.map_map]
  rfl

/-! ## Claim theorems for the feature namer -/

/-- C1: for every ROI count `n` (no ROI label list supplied),
`create_feature_names n` returns exactly `3n + n(n-1)/2 + 3n` names and
no name occurs twice in the list. -/
theorem c1_create_feature_names_length_nodup (n : Nat) :
    (create_feature_names n).length = 3 * n + n * (n - 1) / 2 + 3 * n ∧
    (create_feature_names n).Nodup := by
  constructor
  · rw [create_decomp, List.length_append, List.length_append, length_statNamesBlock,
      List.length_map, length_fcPairs, length_freqNamesBlock]
  · rw [create_eq_keys]
    exact (nodup_featureKeys n).map renderKey_inj

/-- C4: `create_feature_names n` lists all ROI statistical names first,
then the connectivity names, then the frequency-band names grouped by
ROI; the connectivity names are the images of the pair list `fcPairs n`,
which contains every unordered pair with `i < j < n` exactly once, in
row-major (lexicographic) order, and never a pair with `i = j`. -/
theorem c4_create_feature_names_order (n : Nat) :
    create_feature_names n
      = statNamesBlock n ++ ((fcPairs n).map fcName) ++ freqNamesBlock n ∧
    (∀ p : Nat × Nat, p ∈ fcPairs n ↔ p.1 < p.2 ∧ p.2 < n) ∧
    (fcPairs n).Nodup ∧
    (fcPairs n).Pairwise pairLt ∧
    (∀ p ∈ fcPairs n, p.1 ≠ p.2) := by
  refine ⟨create_decomp n, fun p => mem_fcPairs, nodup_fcPairs n, pairwise_fcPairs n,
    fun p hp => ?_⟩
  have := mem_fcPairs.mp hp
  omega

/-- C8, counterexample: contrary to the claim, `create_feature_names 2`
does not have fifteen names (it has thirteen). -/
theorem c8_counterexample : (create_feature_names 2).length ≠ 15 := by decide

/-- C8, amended: `create_feature_names 2` yields exactly thirteen names,
namely the six per-ROI statistical names, the single connectivity name
`FC_ROI_000_ROI_001`, and the six frequency-band names. -/
theorem c8_amended : create_feature_names 2 =
    [ "ROI_000_mean_activity", "ROI_000_std_activity", "ROI_000_var_activity",
      "ROI_001_mean_activity", "ROI_001_std_activity", "ROI_001_var_activity",
      "FC_ROI_000_ROI_001",
      "ROI_000_low_freq_power", "ROI_000_mid_freq_power", "ROI_000_high_freq_power",
      "ROI_001_low_freq_power", "ROI_001_mid_freq_power", "ROI_001_high_freq_power"] := by
  decide

/-- C9: the ROI-count estimator of the pipeline is not an exact inverse
of the namer: there is an ROI count `n` (here `n = 2`) whose total name
count `3n + n(n-1)/2 + 3n` is mapped by the estimator to a different
value. -/
theorem c9_estimator_not_inverse : ∃ n : Nat,
    (create_feature_names n).length = 3 * n + n * (n - 1) / 2 + 3 * n ∧
    n_rois_estimate ((create_feature_names n).length) ≠ n := by
  refine ⟨2, by decide, ?_⟩
  have hl : (create_feature_names 2).length = 13 := by decide
  rw [hl]
  show Nat.sqrt (13 / 6) ≠ 2
  have h1 : 1 ≤ Nat.sqrt 2 := Nat.le_sqrt.mpr (by omega)
  have h2 : Nat.sqrt 2 < 2 := Nat.sqrt_lt.mpr (by omega)
  have h136 : (13 : Nat) / 6 = 2 := by omega
  rw [h136]
  omega

/-! ## Claim theorems for the categorizer -/

/-- C3: the name-based categorizer is total and always returns one of the
five fixed categories, and on any name containing both `_mean_activity`
and `FC_` the `_mean_activity` rule wins by match order. -/
theorem c3_categorizer_total_precedence (s : String) :
    categorize_feature_name s ∈ fixedCategories ∧
    (containsStr s "_mean_activity" = true → containsStr s "FC_" = true →
      categorize_feature_name s = "ROI Mean Activity") := by
  constructor
  · unfold categorize_feature_name
    split
    · simp [fixedCategories]
    · split
      · simp [fixedCategories]
      · split
        · simp [fixedCategories]
        · split <;> simp [fixedCategories]
  · intro h1 _
    simp [categorize_feature_name, h1]

/-- C3 witness: a concrete name containing both substrings is mapped to
the ROI mean-activity category. -/
theorem c3_witness :
    (containsStr "FC_ROI_000_mean_activity" "_mean_activity" = true ∧
     containsStr "FC_ROI_000_mean_activity" "FC_" = true) ∧
    categorize_feature_name "FC_ROI_000_mean_activity" = "ROI Mean Activity" :=
  ⟨by decide,
   (c3_categorizer_total_precedence "FC_ROI_000_mean_activity").2 (by decide) (by decide)⟩

/-! ## Helper lemmas for the biological interpreter -/

theorem mem_of_hasSeg : ∀ (s : List Char) (c : Char) (p : List Char),
    hasSeg s (c :: p) = true → c ∈ s := by
  intro s
  induction s with
  | nil => intro c p h; exact absurd h (by simp [hasSeg, List.isEmpty])
  | cons d ds ih =>
    intro c p h
    simp only [hasSeg, Bool.or_eq_true] at h
    rcases h with h | h
    · simp only [beginsWith, Bool.and_eq_true, beq_iff_eq] at h
      rw [← h.1]
      exact List.mem_cons_self d ds
    · exact List.mem_cons_of_mem _ (ih c p h)

theorem lowerChar_ne_F (c : Char) : lowerChar c ≠ 'F' := by
  intro heq
  by_cases h1 : c = 'A'; · subst h1; exact absurd heq (by decide)
  by_cases h2 : c = 'B'; · subst h2; exact absurd heq (by decide)
  by_cases h3 : c = 'C'; · subst h3; exact absurd heq (by decide)
  by_cases h4 : c = 'D'; · subst h4; exact absurd heq (by decide)
  by_cases h5 : c = 'E'; · subst h5; exact absurd heq (by decide)
  by_cases h6 : c = 'F'; · subst h6; exact absurd heq (by decide)
  by_cases h7 : c = 'G'; · subst h7; exact absurd heq (by decide)
  by_cases h8 : c = 'H'; · subst h8; exact absurd heq (by decide)
  by_cases h9 : c = 'I'; · subst h9; exact absurd heq (by decide)
  by_cases h10 : c = 'J'; · subst h10; exact absurd heq (by decide)
  by_cases h11 : c = 'K'; · subst h11; exact absurd heq (by decide)
  by_cases h12 : c = 'L'; · subst h12; exact absurd heq (by decide)
  by_cases h13 : c = 'M'; · subst h13; exact absurd heq (by decide)
  by_cases h14 : c = 'N'; · subst h14; exact absurd heq (by decide)
  by_cases h15 : c = 'O'; · subst h15; exact absurd heq (by decide)
  by_cases h16 : c = 'P'; · subst h16; exact absurd heq (by decide)
  by_cases h17 : c = 'Q'; · subst h17; exact absurd heq (by decide)
  by_cases h18 : c = 'R'; · subst h18; exact absurd heq (by decide)
  by_cases h19 : c = 'S'; · subst h19; exact absurd heq (by decide)
  by_cases h20 : c = 'T'; · subst h20; exact absurd heq (by decide)
  by_cases h21 : c = 'U'; · subst h21; exact absurd heq (by decide)
  by_cases h22 : c = 'V'; · subst h22; exact absurd heq (by decide)
  by_cases h23 : c = 'W'; · subst h23; exact absurd heq (by decide)
  by_cases h24 : c = 'X'; · subst h24; exact absurd heq (by decide)
  by_cases h25 : c = 'Y'; · subst h25; exact absurd heq (by decide)
  by_cases h26 : c = 'Z'; · subst h26; exact absurd heq (by decide)
  unfold lowerChar at heq
  rw [if_neg h1, if_neg h2, if_neg h3, if_neg h4, if_neg h5, if_neg h6, if_neg h7,
    if_neg h8, if_neg h9, if_neg h10, if_neg h11, if_neg h12, if_neg h13, if_neg h14,
    if_neg h15, if_neg h16, if_neg h17, if_neg h18, if_neg h19, if_neg h20, if_neg h21,
    if_neg h22, if_neg h23, if_neg h24, if_neg h25, if_neg h26] at heq
  exact h6 heq

theorem no_FC_in_lower (s : String) : containsStr (lowerStr s) "FC_" = false := by
  by_contra h
  rw [Bool.not_eq_false] at h
  have h2 : hasSeg (lowerStr s).data ('F' :: "C_".data) = true := h
  have h3 : 'F' ∈ (lowerStr s).data := mem_of_hasSeg _ _ _ h2
  have h4 : 'F' ∈ s.data.map lowerChar := h3
  rw [List.mem_map] at h4
  obtain ⟨c, _, hc⟩ := h4
  exact lowerChar_ne_F c hc

/-! ## Claim theorems for the biological interpreter -/

/-- C5, counterexample: the connectivity feature name `FC_ROI_000_ROI_001`
does not receive the connectivity sentence; it falls through to the
default sentence, because the table key `FC_` is matched against the
lower-cased name. -/
theorem c5_counterexample :
    interpret_feature_biologically "FC_ROI_000_ROI_001" = defaultInterpretation ∧
    defaultInterpretation
      ≠ "Altered brain network connectivity - hallmark of Parkinson\x27s" := by
  constructor
  · decide
  · decide

/-- C5, amended: the interpreter returns the sentence of the first table
keyword occurring in the lower-cased name and the default sentence when
none matches; since the key `FC_` contains upper-case letters it can
never occur in a lower-cased name, so the connectivity sentence is
unreachable for every input; keys that are lower-case, such as `motor`
(first in table order) and `freq_power`, still match. -/
theorem c5_amended_interpreter (feature_name : String) :
    interpret_feature_biologically feature_name
      ≠ "Altered brain network connectivity - hallmark of Parkinson\x27s" ∧
    (containsStr (lowerStr feature_name) "motor" = true →
      interpret_feature_biologically feature_name
        = "Motor control regions - directly affected by dopamine loss in Parkinson\x27s") ∧
    interpret_feature_biologically "ROI_000_low_freq_power"
      = "Abnormal brain oscillations - beta band changes in Parkinson\x27s" := by
  refine ⟨?_, ?_, by decide⟩
  · intro heq
    unfold interpret_feature_biologically at heq
    cases hfind : interpretations.find? (fun kv => containsStr (lowerStr feature_name) kv.1) with
    | none =>
      rw [hfind] at heq
      exact absurd heq (by decide)
    | some kv =>
      rw [hfind] at heq
      have hmem := List.mem_of_find?_eq_some hfind
      have hp := List.find?_some hfind
      simp only [interpretations, List.mem_cons, List.not_mem_nil, or_false] at hmem
      rcases hmem with h | h | h | h | h | h | h | h | h | h <;> subst h <;>
        first
        | exact absurd heq (by decide)
        | (have hp2 : containsStr (lowerStr feature_name) "FC_" = true := hp
           rw [no_FC_in_lower feature_name] at hp2
           exact absurd hp2 (by decide))
  · intro h
    have hf : interpretations.find? (fun kv => containsStr (lowerStr feature_name) kv.1)
        = some ("motor",
          "Motor control regions - directly affected by dopamine loss in Parkinson\x27s") := by
      exact List.find?_cons_of_pos _ h
    unfold interpret_feature_biologically
    rw [hf]

/-- C5 witness: a concrete name containing the `motor` keyword receives
the motor sentence. -/
theorem c5_witness :
    containsStr (lowerStr "Motor_cortex_mean_activity") "motor" = true ∧
    interpret_feature_biologically "Motor_cortex_mean_activity"
      = "Motor control regions - directly affected by dopamine loss in Parkinson\x27s" :=
  ⟨by decide, (c5_amended_interpreter "Motor_cortex_mean_activity").2.1 (by decide)⟩

/-! ## Helper lemmas for best-model selection -/

theorem bestLoop_mem : ∀ (models : List (String × Option ℚ)) (b : ℚ) (acc : Option String),
    bestLoop models b acc = acc ∨
    ∃ nm, bestLoop models b acc = some nm ∧ nm ∈ models.map Prod.fst := by
  intro models
  induction models with
  | nil => intro b acc; exact Or.inl rfl
  | cons e rest ih =>
    intro b acc
    obtain ⟨name, res⟩ := e
    cases res with
    | none =>
      rcases ih b acc with h | ⟨nm, h1, h2⟩
      · exact Or.inl (by simpa [bestLoop] using h)
      · exact Or.inr ⟨nm, by simpa [bestLoop] using h1, by simp [h2]⟩
    | some score =>
      by_cases hlt : b < score
      · rcases ih score (some name) with h | ⟨nm, h1, h2⟩
        · exact Or.inr ⟨name, by simp [bestLoop, hlt, h], by simp⟩
        · exact Or.inr ⟨nm, by simp [bestLoop, hlt, h1], by simp [h2]⟩
      · rcases ih b acc with h | ⟨nm, h1, h2⟩
        · exact Or.inl (by simp [bestLoop, hlt, h])
        · exact Or.inr ⟨nm, by simp [bestLoop, hlt, h1], by simp [h2]⟩

theorem bestLoop_filter : ∀ (models : List (String × Option ℚ)) (b : ℚ) (acc : Option String),
    bestLoop models b acc = bestLoop (models.filter (fun p => p.2.isSome)) b acc := by
  intro models
  induction models with
  | nil => intro b acc; rfl
  | cons e rest ih =>
    intro b acc
    obtain ⟨name, res⟩ := e
    cases res with
    | none => simp [bestLoop, List.filter_cons, ih]
    | some score =>
      by_cases hlt : b < score <;> simp [bestLoop, List.filter_cons, hlt, ih]

/-! ## Claim theorem for best-model selection -/

/-- C6: on a non-empty model dict, `get_best_model` always returns a key
of the dict; an exception while scoring one model leaves the scoring loop
unchanged (the model is skipped); and when scoring every model raises,
the first key of the dict is returned as the fallback. -/
theorem c6_get_best_model (models : List (String × Option ℚ)) (h : models ≠ []) :
    (∃ k, get_best_model models = some k ∧ k ∈ models.map Prod.fst) ∧
    (∀ (b : ℚ) (acc : Option String),
      bestLoop models b acc = bestLoop (models.filter (fun p => p.2.isSome)) b acc) ∧
    ((∀ p ∈ models, p.2 = none) → get_best_model models = (models.map Prod.fst).head?) := by
  refine ⟨?_, fun b acc => bestLoop_filter models b acc, ?_⟩
  · unfold get_best_model
    rcases bestLoop_mem models 0 none with hbl | ⟨nm, h1, h2⟩
    · rw [hbl]
      cases models with
      | nil => exact absurd rfl h
      | cons e rest => exact ⟨e.1, rfl, by simp⟩
    · rw [h1]
      by_cases he : nm = ""
      · subst he
        cases models with
        | nil => exact absurd rfl h
        | cons e rest => exact ⟨e.1, by simp, by simp⟩
      · exact ⟨nm, by simp [he], h2⟩
  · intro hall
    have hfilter : models.filter (fun p => p.2.isSome) = [] := by
      rw [List.filter_eq_nil_iff]
      intro a ha
      rw [hall a ha]
      simp
    have hnone : bestLoop models 0 none = none := by
      rw [bestLoop_filter, hfilter]
      rfl
    unfold get_best_model
    rw [hnone]

/-- C6 witness: on a dict whose models all raise, the first key is
returned. -/
theorem c6_witness : get_best_model modelsAllFail = (modelsAllFail.map Prod.fst).head? :=
  (c6_get_best_model modelsAllFail (by decide)).2.2 (by decide)

/-! ## Helper lemmas for the importance summary -/

theorem length_argsortAsc (s : List ℚ) : (argsortAsc s).length = s.length := by
  rw [argsortAsc, (List.perm_insertionSort _ _).length_eq, List.length_range]

theorem mem_topIndices_lt {s : List ℚ} {k idx : Nat} (h : idx ∈ topIndices s k) :
    idx < s.length := by
  rw [topIndices] at h
  have h2 : idx ∈ argsortAsc s := by
    by_cases hk : k = 0
    · rw [if_pos hk, List.mem_reverse] at h
      exact h
    · rw [if_neg hk, List.mem_reverse] at h
      exact List.Sublist.mem h (List.drop_sublist _ _)
  rw [argsortAsc] at h2
  have h3 : idx ∈ List.range s.length := (List.perm_insertionSort _ _).mem_iff.mp h2
  exact List.mem_range.mp h3

theorem length_topIndices {s : List ℚ} {k : Nat} (h : k ≤ s.length) :
    (topIndices s k).length = if k = 0 then s.length else k := by
  rw [topIndices]
  by_cases hk : k = 0
  · rw [if_pos hk, if_pos hk, List.length_reverse, length_argsortAsc]
  · rw [if_neg hk, if_neg hk, List.length_reverse, List.length_drop, length_argsortAsc]
    omega

theorem sorted_topIndices (s : List ℚ) (k : Nat) :
    (topIndices s k).Pairwise (fun i j => s.getD j 0 ≤ s.getD i 0) := by
  have hs : (argsortAsc s).Pairwise (fun i j => s.getD i 0 ≤ s.getD j 0) := by
    rw [argsortAsc]
    have ht : IsTotal Nat (fun i j => s.getD i 0 ≤ s.getD j 0) := ⟨fun a b => le_total _ _⟩
    have htr : IsTrans Nat (fun i j => s.getD i 0 ≤ s.getD j 0) :=
      ⟨fun a b c hab hbc => le_trans hab hbc⟩
    exact List.sorted_insertionSort _ _
  rw [topIndices]
  by_cases hk : k = 0
  · rw [if_pos hk, List.pairwise_reverse]
    exact hs
  · rw [if_neg hk, List.pairwise_reverse]
    exact List.Pairwise.sublist (List.drop_sublist _ _) hs

theorem resolve_of_lt {nl : List String} {idx : Nat} (hlt : idx < nl.length) :
    resolveFeatureName (some nl) idx = some (nl.getD idx "") := by
  have hne : nl ≠ [] := by
    intro hnil
    rw [hnil] at hlt
    simp at hlt
  simp only [resolveFeatureName, if_neg hne]
  rw [List.get?_eq_getElem?, List.getElem?_eq_getElem hlt]
  congr 1
  rw [List.getD_eq_getElem?_getD, List.getElem?_eq_getElem hlt]
  rfl

theorem categorize_of_lt {nl : List String} {idx : Nat} (hlt : idx < nl.length) :
    categorizeIdx (some nl) idx = some (categorize_feature_name (nl.getD idx "")) := by
  simp only [categorizeIdx]
  rw [List.get?_eq_getElem?, List.getElem?_eq_getElem hlt]
  rw [Option.map_some']
  congr 2
  rw [List.getD_eq_getElem?_getD, List.getElem?_eq_getElem hlt]
  rfl

theorem buildRows_some {nl : List String} (m : String) (v : List ℚ) :
    ∀ (l : List Nat) (r0 : Nat), (∀ idx ∈ l, idx < nl.length) →
    ∃ rs, buildRows (some nl) m v l r0 = some rs ∧
      rs.map (fun r => r.feature_index) = l ∧
      rs.map (fun r => r.rank) = List.range' (r0 + 1) l.length ∧
      ∀ r ∈ rs, r.method = m ∧
        r.feature_name = nl.getD r.feature_index "" ∧
        r.feature_type = categorize_feature_name (nl.getD r.feature_index "") ∧
        r.importance_score = v.getD r.feature_index 0 := by
  intro l
  induction l with
  | nil =>
    intro r0 _
    exact ⟨[], rfl, rfl, rfl, by simp⟩
  | cons idx rest ih =>
    intro r0 hb
    have hlt : idx < nl.length := hb idx (by simp)
    obtain ⟨rs', he', hfi', hrk', hrow'⟩ := ih (r0 + 1) (fun i hi => hb i (by simp [hi]))
    refine ⟨⟨m, r0 + 1, idx, nl.getD idx "", v.getD idx 0,
      categorize_feature_name (nl.getD idx "")⟩ :: rs', ?_, ?_, ?_, ?_⟩
    · simp only [buildRows, resolve_of_lt hlt, categorize_of_lt hlt, he', Option.map_some']
    · simp only [List.map_cons, hfi']
    · simp only [List.map_cons, hrk', List.length_cons]
      have hr : List.range' (r0 + 1) (rest.length + 1) = (r0 + 1) :: List.range' (r0 + 2) rest.length := rfl
      rw [hr]
    · intro r hr
      rcases List.mem_cons.mp hr with h | h
      · subst h
        exact ⟨rfl, rfl, rfl, rfl⟩
      · exact hrow' r h

theorem buildRows_none {nl : List String} (m : String) (v : List ℚ) :
    ∀ (l : List Nat) (r0 : Nat), (∃ idx ∈ l, nl.length ≤ idx) →
    buildRows (some nl) m v l r0 = none := by
  intro l
  induction l with
  | nil =>
    intro r0 h
    obtain ⟨idx, hmem, _⟩ := h
    simp at hmem
  | cons idx rest ih =>
    intro r0 h
    by_cases hlt : idx < nl.length
    · obtain ⟨i, hmem, hge⟩ := h
      have hirest : i ∈ rest := by
        rcases List.mem_cons.mp hmem with h' | h'
        · subst h'
          omega
        · exact h'
      simp only [buildRows, resolve_of_lt hlt, categorize_of_lt hlt,
        ih (r0 + 1) ⟨i, hirest, hge⟩, Option.map_none']
    · have hge : nl.length ≤ idx := by omega
      have hcat : categorizeIdx (some nl) idx = none := by
        simp only [categorizeIdx]
        rw [List.get?_eq_none.mpr hge]
        rfl
      rcases hres : resolveFeatureName (some nl) idx with _ | nm <;>
        simp only [buildRows, hres, hcat]

theorem buildRows_unknown (m : String) (v : List ℚ) :
    ∀ (l : List Nat) (r0 : Nat),
    ∃ rs, buildRows none m v l r0 = some rs ∧ ∀ r ∈ rs, r.feature_type = "Unknown" := by
  intro l
  induction l with
  | nil =>
    intro r0
    exact ⟨[], rfl, by simp⟩
  | cons idx rest ih =>
    intro r0
    obtain ⟨rs', he', hrow'⟩ := ih (r0 + 1)
    refine ⟨⟨m, r0 + 1, idx, "Feature_" ++ natStr idx, v.getD idx 0, "Unknown"⟩ :: rs', ?_, ?_⟩
    · simp only [buildRows, resolveFeatureName, categorizeIdx, he', Option.map_some']
    · intro r hr
      rcases List.mem_cons.mp hr with h | h
      · subst h
        rfl
      · exact hrow' r h

theorem methodBlock_of_some {names : Option (List String)} {k : Nat}
    {e : String × StoredResult} {vals : List ℚ} (h : usedValues e = some vals) :
    methodBlock names k e = buildRows names e.2.method vals (topIndices vals k) 0 := by
  unfold methodBlock
  rw [h]

theorem methodBlock_of_none {names : Option (List String)} {k : Nat}
    {e : String × StoredResult} (h : usedValues e = none) :
    methodBlock names k e = some [] := by
  unfold methodBlock
  rw [h]

theorem collectRows_some_of (names : Option (List String)) (k : Nat) :
    ∀ (results : List (String × StoredResult)),
    (∀ e ∈ results, methodBlock names k e ≠ none) →
    ∃ rows, collectRows names k results = some rows ∧
      ∀ r ∈ rows, ∃ e ∈ results, ∃ blk, methodBlock names k e = some blk ∧ r ∈ blk := by
  intro results
  induction results with
  | nil => exact fun _ => ⟨[], rfl, by simp⟩
  | cons e rest ih =>
    intro hall
    have hhead := hall e (by simp)
    rcases hblk : methodBlock names k e with _ | blk
    · exact absurd hblk hhead
    obtain ⟨rows', hrows', hprov⟩ := ih (fun e' he' => hall e' (by simp [he']))
    refine ⟨blk ++ rows', ?_, ?_⟩
    · simp only [collectRows, hblk, hrows']
    · intro r hr
      rcases List.mem_append.mp hr with h | h
      · exact ⟨e, by simp, blk, hblk, h⟩
      · obtain ⟨e', he', blk', hblk', hrblk'⟩ := hprov r h
        exact ⟨e', by simp [he'], blk', hblk', hrblk'⟩

theorem collectRows_none_of (names : Option (List String)) (k : Nat) :
    ∀ (results : List (String × StoredResult)),
    (∃ e ∈ results, methodBlock names k e = none) →
    collectRows names k results = none := by
  intro results
  induction results with
  | nil =>
    intro h
    obtain ⟨e, he, _⟩ := h
    simp at he
  | cons e rest ih =>
    intro h
    obtain ⟨e', he', hnone⟩ := h
    rcases List.mem_cons.mp he' with h' | h'
    · subst h'
      rcases hrest : collectRows names k rest with _ | more <;>
        simp [collectRows, hnone, hrest]
    · have hres := ih ⟨e', h', hnone⟩
      rcases hblk : methodBlock names k e with _ | blk <;>
        simp [collectRows, hblk, hres]

/-! ## Claim theorems for the importance summary -/

/-- C2, counterexample: with an aligned one-name list and `top_k = 1`,
the summary of a state holding both stored univariate results contains a
single row, for the F-statistic method only — the stored Mutual
Information result contributes zero rows (not `top_k = 1`), because
`create_importance_summary` has no branch for the `univariate_mi` key. -/
theorem c2_counterexample :
    create_importance_summary stMi 1
      = some [⟨ "F-statistic", 1, 0, "ROI_000_mean_activity", 2, "ROI Mean Activity"⟩] ∧
    ("univariate_mi", (⟨ "Mutual Information", [2], [], [], []⟩ : StoredResult))
      ∈ stMi.feature_importance_results := by
  exact ⟨by decide, by decide⟩

/-- C2, amended: with a feature-name list matching the column count and
`top_k` at most the number of features, `create_importance_summary`
completes, and for each stored entry that the summary handles (keys
`univariate_f`, `linear_l2`, `tree_based`, `permutation`, i.e. those with
`usedValues` defined) it emits exactly `top_k` rows when `top_k` is
positive — at `top_k = 0` the numpy slice `[-0:]` keeps the whole argsort
and one row per feature is emitted instead — ranked consecutively from
one, sorted by descending score, each row labelled with the name at its
feature index and categorized by the categorizer on that name; stored
entries with any other key — notably `univariate_mi` and `linear_l1` —
contribute no rows. -/
theorem c2_summary_spec (st : InterpreterState) (names : List String) (top_k : Nat)
    (hn : st.feature_names = some names)
    (hlen : ∀ e ∈ st.feature_importance_results, ∀ vals, usedValues e = some vals →
      vals.length = names.length)
    (hk : top_k ≤ names.length) :
    (∃ rows, create_importance_summary st top_k = some rows) ∧
    (∀ e ∈ st.feature_importance_results, ∀ vals, usedValues e = some vals →
      ∃ block, methodBlock (some names) top_k e = some block ∧
        block.length = (if top_k = 0 then names.length else top_k) ∧
        block.map (fun r => r.rank) = List.range' 1 block.length ∧
        List.Pairwise (fun a b : SummaryRow => b.importance_score ≤ a.importance_score) block ∧
        ∀ r ∈ block, r.method = e.2.method ∧
          r.feature_index < names.length ∧
          r.feature_name = names.getD r.feature_index "" ∧
          r.feature_type = categorize_feature_name (names.getD r.feature_index "") ∧
          r.importance_score = vals.getD r.feature_index 0) ∧
    (∀ e ∈ st.feature_importance_results, usedValues e = none →
      methodBlock (some names) top_k e = some []) := by
  have hblock : ∀ e ∈ st.feature_importance_results, ∀ vals, usedValues e = some vals →
      ∃ block, methodBlock (some names) top_k e = some block ∧
        block.length = (if top_k = 0 then names.length else top_k) ∧
        block.map (fun r => r.rank) = List.range' 1 block.length ∧
        List.Pairwise (fun a b : SummaryRow => b.importance_score ≤ a.importance_score) block ∧
        ∀ r ∈ block, r.method = e.2.method ∧
          r.feature_index < names.length ∧
          r.feature_name = names.getD r.feature_index "" ∧
          r.feature_type = categorize_feature_name (names.getD r.feature_index "") ∧
          r.importance_score = vals.getD r.feature_index 0 := by
    intro e he vals hv
    have hvlen : vals.length = names.length := hlen e he vals hv
    have hbound : ∀ idx ∈ topIndices vals top_k, idx < names.length := fun idx hidx => by
      have := mem_topIndices_lt hidx
      omega
    obtain ⟨rs, hrs, hfi, hrk, hrow⟩ :=
      buildRows_some e.2.method vals (topIndices vals top_k) 0 hbound
    have hlent : (topIndices vals top_k).length = if top_k = 0 then names.length else top_k := by
      rw [← hvlen]
      exact length_topIndices (by omega)
    have hlb := congrArg List.length hfi
    rw [List.length_map] at hlb
    refine ⟨rs, by rw [methodBlock_of_some hv, hrs], ?_, ?_, ?_, ?_⟩
    · rw [hlb, hlent]
    · rw [hlb, hrk]
    · have hsorted := sorted_topIndices vals top_k
      have h1 : List.Pairwise
          (fun i j => vals.getD j 0 ≤ vals.getD i 0) (rs.map (fun r => r.feature_index)) := by
        rw [hfi]
        exact hsorted
      have hmapped := List.pairwise_map.mp h1
      refine List.Pairwise.imp_of_mem ?_ hmapped
      intro a b ha hb hab
      rw [(hrow a ha).2.2.2, (hrow b hb).2.2.2]
      exact hab
    · intro r hr
      have hidx : r.feature_index ∈ topIndices vals top_k := by
        rw [← hfi]
        exact List.mem_map_of_mem _ hr
      have hlt : r.feature_index < names.length := hbound _ hidx
      obtain ⟨h1, h2, h3, h4⟩ := hrow r hr
      exact ⟨h1, hlt, h2, h3, h4⟩
  have hall : ∀ e ∈ st.feature_importance_results, methodBlock (some names) top_k e ≠ none := by
    intro e he
    rcases hu : usedValues e with _ | vals
    · rw [methodBlock_of_none hu]
      simp
    · obtain ⟨block, hb, _⟩ := hblock e he vals hu
      rw [hb]
      simp
  refine ⟨?_, hblock, fun e _ h => methodBlock_of_none h⟩
  rw [create_importance_summary, hn]
  obtain ⟨rows, hrows, _⟩ := collectRows_some_of (some names) top_k
    st.feature_importance_results hall
  exact ⟨rows, hrows⟩

/-- C2 witness: on an aligned two-name, two-column state with one stored
tree result and `top_k = 2`, the summary completes. -/
theorem c2_witness : (create_importance_summary stAligned 2).isSome = true := by
  have hlen : ∀ e ∈ stAligned.feature_importance_results, ∀ vals,
      usedValues e = some vals →
      vals.length = [ "ROI_000_mean_activity", "FC_ROI_000_ROI_001"].length := by
    intro e he vals hv
    have he' : e = ("tree_based", (⟨ "Random Forest", [], [], [1, 5], []⟩ : StoredResult)) := by
      simpa [stAligned] using he
    subst he'
    have hu : usedValues ("tree_based", (⟨ "Random Forest", [], [], [1, 5], []⟩ : StoredResult))
        = some [1, 5] := by decide
    rw [hu] at hv
    injection hv with hv'
    rw [← hv']
    rfl
  obtain ⟨rows, hr⟩ := (c2_summary_spec stAligned
    [ "ROI_000_mean_activity", "FC_ROI_000_ROI_001"] 2 rfl hlen (by decide)).1
  rw [hr]
  rfl

/-- C7, counterexample: with a non-empty feature-name list strictly
shorter than the column count (one name, two score columns), the
summary step does not complete silently — it raises (the embedded
result is `none`, an IndexError on `self.feature_names[idx]`). -/
theorem c7_counterexample :
    stShort.feature_names = some [ "ROI_000_mean_activity"] ∧
    create_importance_summary stShort 1 = none := by
  exact ⟨rfl, by decide⟩

/-- C7, amended: with a feature-name list supplied,
`create_importance_summary` completes exactly when every selected top-k
index of every handled stored result lies inside the name list; with a
name list strictly shorter than the column count it raises an IndexError
as soon as a selected index reaches past the list, and otherwise silently
produces rows labelled from the mismatched short list. -/
theorem c7_summary_short_names (st : InterpreterState) (names : List String) (top_k : Nat)
    (hn : st.feature_names = some names) :
    ((∀ e ∈ st.feature_importance_results, ∀ vals, usedValues e = some vals →
        ∀ idx ∈ topIndices vals top_k, idx < names.length) →
      ∃ rows, create_importance_summary st top_k = some rows) ∧
    ((∃ e ∈ st.feature_importance_results, ∃ vals, usedValues e = some vals ∧
        ∃ idx ∈ topIndices vals top_k, names.length ≤ idx) →
      create_importance_summary st top_k = none) := by
  constructor
  · intro hok
    rw [create_importance_summary, hn]
    have hall : ∀ e ∈ st.feature_importance_results,
        methodBlock (some names) top_k e ≠ none := by
      intro e he
      rcases hu : usedValues e with _ | vals
      · rw [methodBlock_of_none hu]
        simp
      · obtain ⟨rs, hrs, _, _, _⟩ := buildRows_some e.2.method vals
          (topIndices vals top_k) 0 (hok e he vals hu)
        rw [methodBlock_of_some hu, hrs]
        simp
    obtain ⟨rows, hrows, _⟩ := collectRows_some_of (some names) top_k
      st.feature_importance_results hall
    exact ⟨rows, hrows⟩
  · intro hbad
    rw [create_importance_summary, hn]
    obtain ⟨e, he, vals, hu, idx, hidx, hge⟩ := hbad
    apply collectRows_none_of
    refine ⟨e, he, ?_⟩
    rw [methodBlock_of_some hu]
    exact buildRows_none e.2.method vals (topIndices vals top_k) 0 ⟨idx, hidx, hge⟩

/-- C7 witness: a short-name state whose single selected index stays in
range completes (silently drawing its label from the short list). -/
theorem c7_witness : (create_importance_summary stShortOk 1).isSome = true := by
  have hok : ∀ e ∈ stShortOk.feature_importance_results, ∀ vals,
      usedValues e = some vals →
      ∀ idx ∈ topIndices vals 1, idx < [ "ROI_000_mean_activity"].length := by
    intro e he vals hv
    have he' : e = ("tree_based", (⟨ "Random Forest", [], [], [5, 1], []⟩ : StoredResult)) := by
      simpa [stShortOk] using he
    subst he'
    have hu : usedValues ("tree_based", (⟨ "Random Forest", [], [], [5, 1], []⟩ : StoredResult))
        = some [5, 1] := by decide
    rw [hu] at hv
    injection hv with hv'
    rw [← hv']
    decide
  obtain ⟨rows, hr⟩ := (c7_summary_short_names stShortOk
    [ "ROI_000_mean_activity"] 1 rfl).1 hok
  rw [hr]
  rfl

/-- C10: when the feature-name list is absent, `_categorize_feature`
returns the string `Unknown` for every index — a sixth value outside the
five-category enumeration — and every summary row of such a state
carries `feature_type = "Unknown"`. -/
theorem c10_unknown_category (st : InterpreterState) (top_k : Nat)
    (h : st.feature_names = none) :
    "Unknown" ∉ fixedCategories ∧
    (∀ idx : Nat, categorizeIdx st.feature_names idx = some "Unknown") ∧
    ∃ rows, create_importance_summary st top_k = some rows ∧
      ∀ r ∈ rows, r.feature_type = "Unknown" := by
  refine ⟨by decide, fun idx => by rw [h]; rfl, ?_⟩
  rw [create_importance_summary, h]
  have hall : ∀ e ∈ st.feature_importance_results, methodBlock none top_k e ≠ none := by
    intro e _
    rcases hu : usedValues e with _ | vals
    · rw [methodBlock_of_none hu]
      simp
    · obtain ⟨rs, hrs, _⟩ := buildRows_unknown e.2.method vals (topIndices vals top_k) 0
      rw [methodBlock_of_some hu, hrs]
      simp
  obtain ⟨rows, hrows, hprov⟩ := collectRows_some_of none top_k
    st.feature_importance_results hall
  refine ⟨rows, hrows, ?_⟩
  intro r hr
  obtain ⟨e, _, blk, hblk, hrblk⟩ := hprov r hr
  rcases hu : usedValues e with _ | vals
  · rw [methodBlock_of_none hu] at hblk
    injection hblk with hblk'
    rw [← hblk'] at hrblk
    simp at hrblk
  · obtain ⟨rs, hrs, hunk⟩ := buildRows_unknown e.2.method vals (topIndices vals top_k) 0
    rw [methodBlock_of_some hu, hrs] at hblk
    injection hblk with hblk'
    rw [← hblk'] at hrblk
    exact hunk r hrblk

/-- C10 witness: on a concrete nameless state, the categorizer returns
`Unknown` and the summary completes. -/
theorem c10_witness :
    categorizeIdx stNone.feature_names 0 = some "Unknown" ∧
    (create_importance_summary stNone 1).isSome = true := by
  have h := c10_unknown_category stNone 1 rfl
  refine ⟨h.2.1 0, ?_⟩
  obtain ⟨rows, hr, _⟩ := h.2.2
  rw [hr]
  rfl
